import Mathlib

/-!
Verification development for the scaling engine of `fetch_process/convert.py`
(class `Processing`): the five pixel-intensity scaling methods
(`linear_scaling`, `log_scaling`, `sqrt_scaling`, `hist_eq_scaling`,
`asinh_scaling`), the range derivation they share, and the dispatcher
`process_fits` with its final renormalization.

Modelling conventions.
IEEE floating-point doubles are modelled by the type `FP` below: a real
number (`FP.fin`), the two infinities, or NaN.  The arithmetic used by the
source (subtraction, addition, multiplication, division, `np.clip`,
`np.sqrt`, `np.log10`, `np.arcsinh`) is given IEEE semantics on `FP`
(NaN propagates; `0/0 = NaN`; `x/0 = ±Inf` for `x ≠ 0`; `Inf - Inf = NaN`;
`np.sqrt`/`np.log10` of a negative number is NaN, `np.log10 0 = -Inf`),
with the real (infinite-precision) field in place of rounded doubles.
Arrays are flattened `List FP`; elementwise `np` operations are `List.map`.
`np.nanmin`/`np.nanmax` ignore NaN but not infinities, and are modelled by
folds of `nmin2`/`nmax2` (on a zero-size array numpy raises; every claim
below concerns nonempty data).  Reading the FITS container (`fits.open`,
`hdul[1].data`) is out of scope: the model of `process_fits` receives the
already-extracted N-dimensional array, as a shape plus a flat entry list.
Python keyword forwarding `**kwargs` is modelled by the `Kwargs` record;
a call that passes a keyword the target method does not accept raises
`TypeError` before the method body runs, modelled by `PyErr.typeError`.
`np.nanmin`/`np.nanmax`/`np.percentile` on an empty (all-non-finite
filtered) array raise; modelled by `PyErr.emptyData`.
-/

noncomputable section

open Classical

/-- An IEEE double: NaN, +Inf, -Inf, or a finite value (kept exact in ℝ). -/
inductive FP where
  | nan : FP
  | pinf : FP
  | ninf : FP
  | fin : ℝ → FP
deriving DecidableEq

/-- `np.isfinite`. -/
def FP.isFinite : FP → Bool
  | FP.fin _ => true
  | _ => false

/-- The real value of a finite `FP` (0 for the non-finite values). -/
def FP.toReal : FP → ℝ
  | FP.fin a => a
  | _ => 0

/-- IEEE `<=` comparison: any comparison with NaN is false. -/
def FP.fle : FP → FP → Bool
  | FP.nan, _ => false
  | _, FP.nan => false
  | FP.ninf, _ => true
  | _, FP.ninf => false
  | _, FP.pinf => true
  | FP.pinf, _ => false
  | FP.fin a, FP.fin b => decide (a ≤ b)

/-- IEEE subtraction. -/
def fsub : FP → FP → FP
  | FP.nan, _ => FP.nan
  | _, FP.nan => FP.nan
  | FP.pinf, FP.pinf => FP.nan
  | FP.pinf, _ => FP.pinf
  | FP.ninf, FP.ninf => FP.nan
  | FP.ninf, _ => FP.ninf
  | FP.fin _, FP.pinf => FP.ninf
  | FP.fin _, FP.ninf => FP.pinf
  | FP.fin a, FP.fin b => FP.fin (a - b)

/-- IEEE addition. -/
def fadd : FP → FP → FP
  | FP.nan, _ => FP.nan
  | _, FP.nan => FP.nan
  | FP.pinf, FP.ninf => FP.nan
  | FP.ninf, FP.pinf => FP.nan
  | FP.pinf, _ => FP.pinf
  | _, FP.pinf => FP.pinf
  | FP.ninf, _ => FP.ninf
  | _, FP.ninf => FP.ninf
  | FP.fin a, FP.fin b => FP.fin (a + b)

/-- IEEE multiplication (`Inf * 0 = NaN`). -/
def fmul : FP → FP → FP
  | FP.nan, _ => FP.nan
  | _, FP.nan => FP.nan
  | FP.pinf, FP.pinf => FP.pinf
  | FP.pinf, FP.ninf => FP.ninf
  | FP.ninf, FP.pinf => FP.ninf
  | FP.ninf, FP.ninf => FP.pinf
  | FP.pinf, FP.fin b => if b = 0 then FP.nan else if 0 < b then FP.pinf else FP.ninf
  | FP.fin a, FP.pinf => if a = 0 then FP.nan else if 0 < a then FP.pinf else FP.ninf
  | FP.ninf, FP.fin b => if b = 0 then FP.nan else if 0 < b then FP.ninf else FP.pinf
  | FP.fin a, FP.ninf => if a = 0 then FP.nan else if 0 < a then FP.ninf else FP.pinf
  | FP.fin a, FP.fin b => FP.fin (a * b)

/-- IEEE division (`0/0 = NaN`, `x/0 = ±Inf` for finite `x ≠ 0`,
`±Inf/±Inf = NaN`, finite`/±Inf = 0`; the sign of zero is not tracked). -/
def fdiv : FP → FP → FP
  | FP.nan, _ => FP.nan
  | _, FP.nan => FP.nan
  | FP.pinf, FP.pinf => FP.nan
  | FP.pinf, FP.ninf => FP.nan
  | FP.ninf, FP.pinf => FP.nan
  | FP.ninf, FP.ninf => FP.nan
  | FP.pinf, FP.fin b => if 0 ≤ b then FP.pinf else FP.ninf
  | FP.ninf, FP.fin b => if 0 ≤ b then FP.ninf else FP.pinf
  | FP.fin _, FP.pinf => FP.fin 0
  | FP.fin _, FP.ninf => FP.fin 0
  | FP.fin a, FP.fin b =>
    if b = 0 then (if a = 0 then FP.nan else if 0 < a then FP.pinf else FP.ninf)
    else FP.fin (a / b)

/-- `np.maximum` (NaN-propagating). -/
def fmax2 : FP → FP → FP
  | FP.nan, _ => FP.nan
  | _, FP.nan => FP.nan
  | FP.pinf, _ => FP.pinf
  | _, FP.pinf => FP.pinf
  | FP.ninf, y => y
  | x, FP.ninf => x
  | FP.fin a, FP.fin b => FP.fin (max a b)

/-- `np.minimum` (NaN-propagating). -/
def fmin2 : FP → FP → FP
  | FP.nan, _ => FP.nan
  | _, FP.nan => FP.nan
  | FP.ninf, _ => FP.ninf
  | _, FP.ninf => FP.ninf
  | FP.pinf, y => y
  | x, FP.pinf => x
  | FP.fin a, FP.fin b => FP.fin (min a b)

/-- `np.clip(x, lo, hi) = np.minimum(np.maximum(x, lo), hi)`. -/
def clipFP (x lo hi : FP) : FP := fmin2 (fmax2 x lo) hi

/-- `np.sqrt` (NaN on negative input). -/
def fsqrt : FP → FP
  | FP.nan => FP.nan
  | FP.pinf => FP.pinf
  | FP.ninf => FP.nan
  | FP.fin a => if a < 0 then FP.nan else FP.fin (Real.sqrt a)

/-- `np.log10` (`log10 0 = -Inf`, NaN on negative input). -/
def flog10 : FP → FP
  | FP.nan => FP.nan
  | FP.pinf => FP.pinf
  | FP.ninf => FP.nan
  | FP.fin a => if a < 0 then FP.nan else if a = 0 then FP.ninf else FP.fin (Real.logb 10 a)

/-- `np.arcsinh` (total, monotone). -/
def fasinh : FP → FP
  | FP.nan => FP.nan
  | FP.pinf => FP.pinf
  | FP.ninf => FP.ninf
  | FP.fin a => FP.fin (Real.arsinh a)

/-- One step of the `np.nanmin` reduction: NaN is ignored, infinities are not. -/
def nmin2 : FP → FP → FP
  | FP.nan, y => y
  | x, FP.nan => x
  | FP.ninf, _ => FP.ninf
  | _, FP.ninf => FP.ninf
  | FP.pinf, y => y
  | x, FP.pinf => x
  | FP.fin a, FP.fin b => FP.fin (min a b)

/-- One step of the `np.nanmax` reduction. -/
def nmax2 : FP → FP → FP
  | FP.nan, y => y
  | x, FP.nan => x
  | FP.pinf, _ => FP.pinf
  | _, FP.pinf => FP.pinf
  | FP.ninf, y => y
  | x, FP.ninf => x
  | FP.fin a, FP.fin b => FP.fin (max a b)

/-- `np.nanmin` over a flattened array (NaN when every entry is NaN; on a
zero-size array numpy raises, a case no claim exercises). -/
def nanminL (l : List FP) : FP := l.foldr nmin2 FP.nan

/-- `np.nanmax` over a flattened array. -/
def nanmaxL (l : List FP) : FP := l.foldr nmax2 FP.nan

/-- `convert.py:191`: the dispatcher's final renormalization
`(scaled - nanmin(scaled)) / (nanmax(scaled) - nanmin(scaled))`. -/
def renorm (l : List FP) : List FP :=
  l.map (fun x => fdiv (fsub x (nanminL l)) (fsub (nanmaxL l) (nanminL l)))

/-- `data[np.isfinite(data)]`: the finite entries, as plain reals. -/
def validData (data : List FP) : List ℝ :=
  data.filterMap (fun x => match x with | FP.fin a => some a | _ => none)

/-- Minimum of a list of reals (`np.nanmin` applied to already-filtered
finite data); `none` on the empty list, where numpy raises. -/
def listMin : List ℝ → Option ℝ
  | [] => none
  | a :: t => some (t.foldl min a)

/-- Maximum of a list of reals; `none` on the empty list, where numpy raises. -/
def listMax : List ℝ → Option ℝ
  | [] => none
  | a :: t => some (t.foldl max a)

/-- Ascending sort, as used inside `np.percentile`. -/
def sortR (l : List ℝ) : List ℝ := List.insertionSort (fun a b => a ≤ b) l

/-- Piecewise-linear interpolation through the points `(i, f i)` for
`i = 0, …, m`, clamped to the endpoint values outside `[0, m]` — the common
core of `np.percentile` (`linear` method) and `np.interp` on the knots
`0, …, m`. -/
def interpKnots (f : ℕ → ℝ) (m : ℕ) (x : ℝ) : ℝ :=
  if x ≤ 0 then f 0
  else if (m : ℝ) ≤ x then f m
  else f (Nat.floor x) + (x - (Nat.floor x : ℝ)) * (f (Nat.floor x + 1) - f (Nat.floor x))

/-- `np.percentile(l, q)` with the default `linear` interpolation: the value
at fractional index `q/100 * (len - 1)` of the sorted data.  (numpy raises
for `q` outside `[0, 100]` and for empty `l`; the claims stay inside both.) -/
def percentileR (l : List ℝ) (q : ℝ) : ℝ :=
  interpKnots (fun j => (sortR l).getD j 0) ((sortR l).length - 1)
    (q / 100 * (((sortR l).length - 1 : ℕ) : ℝ))

/-- Error conditions surfaced by the Python code: `TypeError` from calling a
scaling method with a keyword it does not accept (`convert.py:177-186`), and
the `ValueError`/`IndexError` numpy raises when a reduction or percentile is
taken over a zero-size (empty after finite-filtering) array. -/
inductive PyErr where
  | typeError : PyErr
  | emptyData : PyErr
deriving DecidableEq

/-- Resolve one bound: an explicit override wins; otherwise the given
data-derived extremum, whose absence (empty valid data) is numpy's raise. -/
def extremum (o : Option ℝ) (e : Option ℝ) : Except PyErr ℝ :=
  match o with
  | some v => Except.ok v
  | none =>
    match e with
    | some m => Except.ok m
    | none => Except.error PyErr.emptyData

/-- The shared range derivation of `linear_scaling` (`convert.py:43-47`),
`log_scaling` (66-71) and `asinh_scaling` (145-149): filter to finite data,
then `np.nanmin`/`np.nanmax` for whichever bound was not supplied. -/
def resolveExtrema (data : List FP) (smin smax : Option ℝ) : Except PyErr (ℝ × ℝ) :=
  match extremum smin (listMin (validData data)) with
  | Except.error e => Except.error e
  | Except.ok lo =>
    match extremum smax (listMax (validData data)) with
    | Except.error e => Except.error e
    | Except.ok hi => Except.ok (lo, hi)

/-- The range derivation of `sqrt_scaling` (`convert.py:92-98`): if either
bound is missing, both percentiles are computed over the finite data
(numpy raises when that subset is empty), and each missing bound is filled
from its percentile. -/
def resolvePercentile (data : List FP) (smin smax : Option ℝ) (p : ℝ × ℝ) :
    Except PyErr (ℝ × ℝ) :=
  match smin, smax with
  | some a, some b => Except.ok (a, b)
  | _, _ =>
    match validData data with
    | [] => Except.error PyErr.emptyData
    | a :: t =>
      Except.ok (smin.getD (percentileR (a :: t) p.1), smax.getD (percentileR (a :: t) p.2))

/-- `Processing.linear_scaling` (`convert.py:30-52`):
`(data - scale_min) / (scale_max - scale_min)`, clipped to `[0, 1]`. -/
def linear_scaling (data : List FP) (smin smax : Option ℝ) : Except PyErr (List FP) :=
  match resolveExtrema data smin smax with
  | Except.error e => Except.error e
  | Except.ok (lo, hi) =>
    Except.ok (data.map (fun x =>
      clipFP (fdiv (fsub x (FP.fin lo)) (fsub (FP.fin hi) (FP.fin lo))) (FP.fin 0) (FP.fin 1)))

/-- `Processing.log_scaling` (`convert.py:54-76`):
`log10(clip(data, min, max) - min + 1) / log10(max - min + 1)`. -/
def log_scaling (data : List FP) (smin smax : Option ℝ) : Except PyErr (List FP) :=
  match resolveExtrema data smin smax with
  | Except.error e => Except.error e
  | Except.ok (lo, hi) =>
    Except.ok (data.map (fun x =>
      fdiv (flog10 (fadd (fsub (clipFP x (FP.fin lo) (FP.fin hi)) (FP.fin lo)) (FP.fin 1)))
        (flog10 (FP.fin (hi - lo + 1)))))

/-- `Processing.sqrt_scaling` (`convert.py:78-109`):
`sqrt(clip(data, min, max) - min) / sqrt(max - min)`, clipped to `[0, 1]`,
with percentile-derived default range. -/
def sqrt_scaling (data : List FP) (smin smax : Option ℝ) (percentiles : ℝ × ℝ) :
    Except PyErr (List FP) :=
  match resolvePercentile data smin smax percentiles with
  | Except.error e => Except.error e
  | Except.ok (lo, hi) =>
    Except.ok (data.map (fun x =>
      clipFP (fdiv (fsqrt (fsub (clipFP x (FP.fin lo) (FP.fin hi)) (FP.fin lo)))
        (fsqrt (FP.fin (hi - lo)))) (FP.fin 0) (FP.fin 1)))

/-- Whether `x` falls in bin `i` of `np.histogram(·, bins=np.arange(257))`:
bin `i < 255` is `[i, i+1)`, the last bin is the closed `[255, 256]`.
NaN and the infinities fall in no bin. -/
def inBin (i : ℕ) (x : FP) : Bool :=
  match x with
  | FP.fin a =>
    if i = 255 then decide ((255 : ℝ) ≤ a ∧ a ≤ 256)
    else decide ((i : ℝ) ≤ a ∧ a < (i : ℝ) + 1)
  | _ => false

/-- `img_hist` of `convert.py:121`: the count in bin `i`. -/
def histCount (data : List FP) (i : ℕ) : ℕ := data.countP (inBin i)

/-- `cdf = img_hist.cumsum()` (`convert.py:122`): the cumulative count. -/
def cdf (data : List FP) (j : ℕ) : ℕ :=
  (Finset.range (j + 1)).sum (fun i => histCount data i)

/-- `img_hist.max()`: the peak bin count. -/
def histPeak (data : List FP) : ℕ := (Finset.range 256).sup (histCount data)

/-- `cdf.max()`: the largest cumulative count (= the number of in-range
entries). -/
def cdfPeak (data : List FP) : ℕ := (Finset.range 256).sup (cdf data)

/-- `cdf_normalized = cdf * float(img_hist.max()) / cdf.max()`
(`convert.py:123`); when no entry is in range this is the float `0.0/0`,
i.e. NaN. -/
def cdfNormalized (data : List FP) (j : ℕ) : FP :=
  fdiv (FP.fin ((cdf data j : ℝ) * (histPeak data : ℝ))) (FP.fin (cdfPeak data : ℝ))

/-- `np.interp(x, bins[:-1], cdf_normalized)` for one pixel
(`convert.py:124`): piecewise-linear through the knots `0, …, 255`, clamped
to the endpoint curve values outside; NaN maps to NaN. -/
def histEqLookup (data : List FP) (x : FP) : FP :=
  match x with
  | FP.nan => FP.nan
  | FP.pinf => cdfNormalized data 255
  | FP.ninf => cdfNormalized data 0
  | FP.fin a =>
    if a ≤ 0 then cdfNormalized data 0
    else if (255 : ℝ) ≤ a then cdfNormalized data 255
    else fadd (cdfNormalized data (Nat.floor a))
      (fmul (FP.fin (a - (Nat.floor a : ℝ)))
        (fsub (cdfNormalized data (Nat.floor a + 1)) (cdfNormalized data (Nat.floor a))))

/-- `Processing.hist_eq_scaling` (`convert.py:111-125`).  The source
flattens, interpolates each pixel through the lookup curve, and reshapes to
the original shape; on the flattened entry list that composition is an
elementwise map. -/
def hist_eq_scaling (data : List FP) : List FP := data.map (histEqLookup data)

/-- `Processing.asinh_scaling` (`convert.py:128-153`):
`arcsinh((data - scale_min)/non_linear) / arcsinh((scale_max - scale_min)/non_linear)`. -/
def asinh_scaling (data : List FP) (smin smax : Option ℝ) (non_linear : ℝ) :
    Except PyErr (List FP) :=
  match resolveExtrema data smin smax with
  | Except.error e => Except.error e
  | Except.ok (lo, hi) =>
    Except.ok (data.map (fun x =>
      fdiv (fasinh (fdiv (fsub x (FP.fin lo)) (FP.fin non_linear)))
        (fasinh (fdiv (FP.fin (hi - lo)) (FP.fin non_linear)))))

/-- The five recognized scaling-method names (`convert.py:177-186`).  The
string dispatch's `else` branch (unknown name, `ValueError`) is outside this
closed enumeration. -/
inductive Method where
  | linear : Method
  | log : Method
  | sqrt : Method
  | hist_eq : Method
  | asinh : Method
deriving DecidableEq

/-- The `**kwargs` forwarded by `process_fits` to the selected method:
each field is `some v` when the keyword was passed. -/
structure Kwargs where
  scale_min : Option ℝ
  scale_max : Option ℝ
  percentiles : Option (ℝ × ℝ)
  non_linear : Option ℝ

/-- Passing no keyword arguments. -/
def noKwargs : Kwargs := Kwargs.mk none none none none

/-- Whether every passed keyword is in the selected method's signature.
When this is false, Python raises `TypeError` at the call site, before the
method body executes. -/
def acceptsKwargs (m : Method) (kw : Kwargs) : Bool :=
  match m with
  | Method.linear => kw.percentiles.isNone && kw.non_linear.isNone
  | Method.log => kw.percentiles.isNone && kw.non_linear.isNone
  | Method.sqrt => kw.non_linear.isNone
  | Method.asinh => kw.percentiles.isNone
  | Method.hist_eq =>
    kw.scale_min.isNone && kw.scale_max.isNone && kw.percentiles.isNone && kw.non_linear.isNone

/-- The dispatch `if/elif` chain of `convert.py:177-186`, with each method's
Python default arguments (`percentiles=(1, 99)`, `non_linear=2.0`) filled in
for keywords not passed. -/
def scaleStep (m : Method) (kw : Kwargs) (data : List FP) : Except PyErr (List FP) :=
  match m with
  | Method.asinh => asinh_scaling data kw.scale_min kw.scale_max (kw.non_linear.getD 2)
  | Method.linear => linear_scaling data kw.scale_min kw.scale_max
  | Method.log => log_scaling data kw.scale_min kw.scale_max
  | Method.sqrt => sqrt_scaling data kw.scale_min kw.scale_max (kw.percentiles.getD (1, 99))
  | Method.hist_eq => Except.ok (hist_eq_scaling data)

/-- The dispatcher body after frame extraction: keyword check (Python's
call-time `TypeError`), the selected scaling method, then the final
renormalization of `convert.py:191`. -/
def processEntries (m : Method) (kw : Kwargs) (data : List FP) : Except PyErr (List FP) :=
  if acceptsKwargs m kw then Except.map renorm (scaleStep m kw data)
  else Except.error PyErr.typeError

/-- An N-dimensional numpy array: its shape and its row-major flattened
entries. -/
structure NDArray where
  shape : List ℕ
  entries : List FP

/-- The number of entries of one plane of a 3-D stack. -/
def planeSize (shape : List ℕ) : ℕ := (shape.drop 1).prod

/-- `convert.py:172-173`: `if data.ndim == 3: data = data[frame]`.  Only
rank 3 is sliced; every other rank passes through unchanged (there is no
rank validation in `process_fits`). -/
def extractFrame (a : NDArray) (frame : ℕ) : NDArray :=
  if a.shape.length = 3 then
    NDArray.mk (a.shape.drop 1)
      ((a.entries.drop (frame * planeSize a.shape)).take (planeSize a.shape))
  else a

/-- `Processing.process_fits` (`convert.py:156-192`), from the point where
`hdul[1].data` has been read: frame extraction, dispatch to the selected
scaling method with the forwarded keywords, final renormalization. -/
def process_fits (m : Method) (kw : Kwargs) (a : NDArray) (frame : ℕ) :
    Except PyErr NDArray :=
  Except.map (fun l => NDArray.mk (extractFrame a frame).shape l)
    (processEntries m kw (extractFrame a frame).entries)


/-! ### Facts about the NaN-ignoring reductions and the final renormalization -/

theorem nanminL_cons (x : FP) (t : List FP) : nanminL (x :: t) = nmin2 x (nanminL t) := rfl

theorem nanmaxL_cons (x : FP) (t : List FP) : nanmaxL (x :: t) = nmax2 x (nanmaxL t) := rfl

theorem fsub_nan_right (x : FP) : fsub x FP.nan = FP.nan := by cases x <;> rfl

theorem fdiv_nan_left (v : FP) : fdiv FP.nan v = FP.nan := by cases v <;> rfl

/-- Shapes a `nmin2` application can take when its value is finite. -/
theorem nmin2_eq_fin {x v : FP} {a : ℝ} (h : nmin2 x v = FP.fin a) :
    (x = FP.fin a ∧ (v = FP.nan ∨ v = FP.pinf)) ∨
    ((x = FP.nan ∨ x = FP.pinf) ∧ v = FP.fin a) ∨
    (∃ d b, x = FP.fin d ∧ v = FP.fin b ∧ a = min d b) := by
  cases x <;> cases v <;> simp [nmin2] at h ⊢ <;> tauto

/-- Shapes a `nmax2` application can take when its value is finite. -/
theorem nmax2_eq_fin {x v : FP} {a : ℝ} (h : nmax2 x v = FP.fin a) :
    (x = FP.fin a ∧ (v = FP.nan ∨ v = FP.ninf)) ∨
    ((x = FP.nan ∨ x = FP.ninf) ∧ v = FP.fin a) ∨
    (∃ d b, x = FP.fin d ∧ v = FP.fin b ∧ a = max d b) := by
  cases x <;> cases v <;> simp [nmax2] at h ⊢ <;> tauto

/-- If `np.nanmin` is NaN the whole array is NaN. -/
theorem nanminL_eq_nan {l : List FP} (h : nanminL l = FP.nan) : ∀ x ∈ l, x = FP.nan := by
  induction l with
  | nil => intro x hx; cases hx
  | cons y t ih =>
    rw [nanminL_cons] at h
    have hy : y = FP.nan ∧ nanminL t = FP.nan := by
      rcases ht : nanminL t with _ | _ | _ | b <;> rw [ht] at h <;> cases y <;>
        simp_all [nmin2]
    intro x hx
    rcases List.mem_cons.mp hx with rfl | hx
    · exact hy.1
    · exact ih hy.2 x hx

/-- If `np.nanmax` is NaN the whole array is NaN. -/
theorem nanmaxL_eq_nan {l : List FP} (h : nanmaxL l = FP.nan) : ∀ x ∈ l, x = FP.nan := by
  induction l with
  | nil => intro x hx; cases hx
  | cons y t ih =>
    rw [nanmaxL_cons] at h
    have hy : y = FP.nan ∧ nanmaxL t = FP.nan := by
      rcases ht : nanmaxL t with _ | _ | _ | b <;> rw [ht] at h <;> cases y <;>
        simp_all [nmax2]
    intro x hx
    rcases List.mem_cons.mp hx with rfl | hx
    · exact hy.1
    · exact ih hy.2 x hx

/-- If `np.nanmin` is `+Inf`, every entry is NaN or `+Inf`. -/
theorem nanminL_eq_pinf {l : List FP} (h : nanminL l = FP.pinf) :
    ∀ x ∈ l, x = FP.nan ∨ x = FP.pinf := by
  induction l with
  | nil => intro x hx; cases hx
  | cons y t ih =>
    rw [nanminL_cons] at h
    have hy : (y = FP.nan ∨ y = FP.pinf) ∧
        (nanminL t = FP.nan ∨ nanminL t = FP.pinf) := by
      rcases ht : nanminL t with _ | _ | _ | b <;> rw [ht] at h <;> cases y <;>
        simp_all [nmin2]
    intro x hx
    rcases List.mem_cons.mp hx with rfl | hx
    · exact hy.1
    · rcases hy.2 with h2 | h2
      · exact Or.inl (nanminL_eq_nan h2 x hx)
      · exact ih h2 x hx

/-- If `np.nanmax` is `-Inf`, every entry is NaN or `-Inf`. -/
theorem nanmaxL_eq_ninf {l : List FP} (h : nanmaxL l = FP.ninf) :
    ∀ x ∈ l, x = FP.nan ∨ x = FP.ninf := by
  induction l with
  | nil => intro x hx; cases hx
  | cons y t ih =>
    rw [nanmaxL_cons] at h
    have hy : (y = FP.nan ∨ y = FP.ninf) ∧
        (nanmaxL t = FP.nan ∨ nanmaxL t = FP.ninf) := by
      rcases ht : nanmaxL t with _ | _ | _ | b <;> rw [ht] at h <;> cases y <;>
        simp_all [nmax2]
    intro x hx
    rcases List.mem_cons.mp hx with rfl | hx
    · exact hy.1
    · rcases hy.2 with h2 | h2
      · exact Or.inl (nanmaxL_eq_nan h2 x hx)
      · exact ih h2 x hx

/-- `np.nanmin` bounds every finite entry from below. -/
theorem nanminL_le {l : List FP} {a c : ℝ} (h : nanminL l = FP.fin a)
    (hc : FP.fin c ∈ l) : a ≤ c := by
  induction l generalizing a with
  | nil => cases hc
  | cons y t ih =>
    rw [nanminL_cons] at h
    rcases nmin2_eq_fin h with ⟨hy, hv⟩ | ⟨hy, hv⟩ | ⟨d, b, hy, hv, rfl⟩
    · rcases List.mem_cons.mp hc with heq | hmem
      · rw [hy] at heq; simp only [FP.fin.injEq] at heq; exact le_of_eq heq.symm
      · rcases hv with h2 | h2
        · exact absurd (nanminL_eq_nan h2 _ hmem) (by simp)
        · rcases nanminL_eq_pinf h2 _ hmem with h3 | h3 <;> simp at h3
    · rcases List.mem_cons.mp hc with heq | hmem
      · rcases hy with h2 | h2 <;> rw [← heq] at h2 <;> exact absurd h2 (by simp)
      · exact ih hv hmem
    · rcases List.mem_cons.mp hc with heq | hmem
      · rw [hy] at heq; simp only [FP.fin.injEq] at heq
        exact le_of_le_of_eq (min_le_left d b) heq.symm
      · exact le_trans (min_le_right d b) (ih hv hmem)

/-- `np.nanmax` bounds every finite entry from above. -/
theorem nanmaxL_ge {l : List FP} {b c : ℝ} (h : nanmaxL l = FP.fin b)
    (hc : FP.fin c ∈ l) : c ≤ b := by
  induction l generalizing b with
  | nil => cases hc
  | cons y t ih =>
    rw [nanmaxL_cons] at h
    rcases nmax2_eq_fin h with ⟨hy, hv⟩ | ⟨hy, hv⟩ | ⟨d, v, hy, hv, rfl⟩
    · rcases List.mem_cons.mp hc with heq | hmem
      · rw [hy] at heq; simp only [FP.fin.injEq] at heq; exact le_of_eq heq
      · rcases hv with h2 | h2
        · exact absurd (nanmaxL_eq_nan h2 _ hmem) (by simp)
        · rcases nanmaxL_eq_ninf h2 _ hmem with h3 | h3 <;> simp at h3
    · rcases List.mem_cons.mp hc with heq | hmem
      · rcases hy with h2 | h2 <;> rw [← heq] at h2 <;> exact absurd h2 (by simp)
      · exact ih hv hmem
    · rcases List.mem_cons.mp hc with heq | hmem
      · rw [hy] at heq; simp only [FP.fin.injEq] at heq
        exact le_of_eq_of_le heq (le_max_left d v)
      · exact le_trans (ih hv hmem) (le_max_right d v)

/-- The final renormalization of `convert.py:191` maps every entry that
comes out finite into `[0, 1]`, whatever the scaled array contained:
finite values land between nanmin and nanmax; with an infinite range the
finite quotients are 0; degenerate and NaN ranges only ever produce
non-finite entries. -/
theorem renorm_mem_bounds (l : List FP) :
    ∀ y ∈ renorm l, y.isFinite = true → 0 ≤ y.toReal ∧ y.toReal ≤ 1 := by
  intro y hy hfin
  simp only [renorm, List.mem_map] at hy
  obtain ⟨x, hx, rfl⟩ := hy
  rcases hm : nanminL l with _ | _ | _ | a <;> rw [hm] at hfin
  · simp [fsub_nan_right, fdiv_nan_left, FP.isFinite] at hfin
  · -- nanmin = +Inf: every quotient is NaN
    rcases hM : nanmaxL l with _ | _ | _ | b <;> rw [hM] at hfin <;>
      cases x <;> simp [fsub, fdiv, FP.isFinite] at hfin
  · -- nanmin = -Inf: every quotient is NaN
    rcases hM : nanmaxL l with _ | _ | _ | b <;> rw [hM] at hfin <;>
      cases x <;> simp [fsub, fdiv, FP.isFinite] at hfin
  · rcases hM : nanmaxL l with _ | _ | _ | b <;> rw [hM] at hfin
    · cases x <;> simp [fsub, fdiv, FP.isFinite] at hfin
    · -- infinite range: finite entries map to 0
      cases x <;> simp [fsub, fdiv, FP.isFinite, FP.toReal] at hfin ⊢
    · cases x <;> simp [fsub, fdiv, FP.isFinite, FP.toReal] at hfin ⊢
    · -- both bounds finite
      cases x with
      | nan => simp [fsub, fdiv, FP.isFinite] at hfin
      | pinf =>
        simp only [fsub, fdiv] at hfin
        split at hfin <;> simp [FP.isFinite] at hfin
      | ninf =>
        simp only [fsub, fdiv] at hfin
        split at hfin <;> simp [FP.isFinite] at hfin
      | fin c =>
        have hac : a ≤ c := nanminL_le hm hx
        have hcb : c ≤ b := nanmaxL_ge hM hx
        simp only [fsub, fdiv] at hfin ⊢
        by_cases hba : b - a = 0
        · rw [if_pos hba] at hfin
          by_cases h1 : c - a = 0
          · rw [if_pos h1] at hfin; simp [FP.isFinite] at hfin
          · rw [if_neg h1] at hfin
            by_cases h2 : 0 < c - a
            · rw [if_pos h2] at hfin; simp [FP.isFinite] at hfin
            · rw [if_neg h2] at hfin; simp [FP.isFinite] at hfin
        · rw [if_neg hba] at hfin ⊢
          have hba2 : 0 < b - a := lt_of_le_of_ne (by linarith) (Ne.symm hba)
          refine ⟨?_, ?_⟩
          · simp only [FP.toReal]
            exact div_nonneg (by linarith) (le_of_lt hba2)
          · simp only [FP.toReal]
            rw [div_le_one hba2]; linarith

/-! ### Concrete evaluation helpers -/

/-- `linear_scaling` on the two-pixel image `[0, 1]` with derived bounds. -/
theorem linear_demo :
    scaleStep Method.linear noKwargs [FP.fin 0, FP.fin 1] = Except.ok [FP.fin 0, FP.fin 1] := by
  norm_num [scaleStep, noKwargs, linear_scaling, resolveExtrema, extremum, validData,
    listMin, listMax, List.filterMap, clipFP, fmax2, fmin2, fsub, fdiv, min_def, max_def]

/-- The final renormalization fixes `[0, 1]`. -/
theorem renorm_demo : renorm [FP.fin 0, FP.fin 1] = [FP.fin 0, FP.fin 1] := by
  norm_num [renorm, nanminL, nanmaxL, List.foldr, nmin2, nmax2, fsub, fdiv, min_def, max_def]

/-- Claim C1: whenever the selected scaling method succeeds and its result
has at least two distinct finite values (so that its nanmax exceeds its
nanmin), the dispatcher `process_fits` — the scaling function followed by
the final renormalization `(result - nanmin) / (nanmax - nanmin)` — returns
an array whose every finite entry lies in `[0, 1]`; the method is
universally quantified, so this holds for all five methods. -/
theorem process_fits_output_in_unit_interval
    (m : Method) (kw : Kwargs) (a : NDArray) (frame : ℕ) (res : List FP)
    (hkw : acceptsKwargs m kw = true)
    (hstep : scaleStep m kw (extractFrame a frame).entries = Except.ok res)
    (_hdist : ∃ u ∈ res, ∃ v ∈ res, u.isFinite = true ∧ v.isFinite = true ∧ u ≠ v) :
    process_fits m kw a frame =
      Except.ok (NDArray.mk (extractFrame a frame).shape (renorm res)) ∧
    ∀ y ∈ renorm res, y.isFinite = true → 0 ≤ y.toReal ∧ y.toReal ≤ 1 := by
  refine ⟨?_, renorm_mem_bounds res⟩
  simp [process_fits, processEntries, hkw, hstep, Except.map]

/-- Witness for C1: the two-pixel linear run, whose renormalized second
entry is the finite value 1 ∈ [0, 1]. -/
theorem process_fits_output_in_unit_interval_witness :
    0 ≤ (FP.fin 1).toReal ∧ (FP.fin 1).toReal ≤ 1 := by
  have h := process_fits_output_in_unit_interval Method.linear noKwargs
    (NDArray.mk [1, 2] [FP.fin 0, FP.fin 1]) 0 [FP.fin 0, FP.fin 1]
    rfl
    (by simpa [extractFrame] using linear_demo)
    ⟨FP.fin 0, by simp, FP.fin 1, by simp, rfl, rfl, by simp⟩
  refine h.2 (FP.fin 1) ?_ rfl
  rw [renorm_demo]; simp

/-- Claim C4: passing a keyword the selected method does not accept makes
the dispatcher fail with the call-time parameter-mismatch error
(`TypeError`), for every method and every input array — before any scaling
math runs and with no partial result. -/
theorem kwargs_mismatch_fails_fast (m : Method) (kw : Kwargs) (a : NDArray) (frame : ℕ)
    (h : acceptsKwargs m kw = false) :
    process_fits m kw a frame = Except.error PyErr.typeError := by
  simp [process_fits, processEntries, h, Except.map]

/-- Witness for C4: `percentiles` passed to `linear`. -/
theorem kwargs_mismatch_fails_fast_witness :
    process_fits Method.linear (Kwargs.mk none none (some (1, 99)) none)
      (NDArray.mk [1, 1] [FP.fin 3]) 0 = Except.error PyErr.typeError :=
  kwargs_mismatch_fails_fast Method.linear (Kwargs.mk none none (some (1, 99)) none)
    (NDArray.mk [1, 1] [FP.fin 3]) 0 rfl

/-- Claim C5 counterexample: a 1-dimensional input is scaled successfully —
`process_fits` performs no rank validation, so the claimed "unsupported
rank" failure for inputs that are neither 2-D nor 3-D does not occur. -/
theorem rank_no_validation_counterexample :
    process_fits Method.linear noKwargs (NDArray.mk [2] [FP.fin 0, FP.fin 1]) 0 =
    Except.ok (NDArray.mk [2] [FP.fin 0, FP.fin 1]) := by
  have h1 : acceptsKwargs Method.linear noKwargs = true := rfl
  simp [process_fits, extractFrame, processEntries, h1, linear_demo, renorm_demo, Except.map]

/-- Claim C5 (amended): a 3-D input has the plane at `frame` along axis 0
extracted (for an in-range frame index) and is then processed as that 2-D
plane; every input whose rank is not 3 — including 1-D and 4-D arrays — is
passed through to the scaling pipeline unchanged, with no rank validation
and no "unsupported rank" error. -/
theorem rank_handling (m : Method) (kw : Kwargs) (frame : ℕ) :
    (∀ (d0 d1 d2 : ℕ) (es : List FP), frame < d0 →
      process_fits m kw (NDArray.mk [d0, d1, d2] es) frame =
      process_fits m kw
        (NDArray.mk [d1, d2] ((es.drop (frame * (d1 * d2))).take (d1 * d2))) frame) ∧
    (∀ (q : List ℕ) (es : List FP), q.length ≠ 3 →
      process_fits m kw (NDArray.mk q es) frame =
      Except.map (fun l => NDArray.mk q l) (processEntries m kw es)) := by
  constructor
  · intro d0 d1 d2 es _
    simp [process_fits, extractFrame, planeSize]
  · intro q es h
    simp [process_fits, extractFrame, h]

/-- Witness for C5: the 3-D stack `(2, 1, 2)` at frame 1, and a 4-D shape. -/
theorem rank_handling_witness :
    (process_fits Method.linear noKwargs
        (NDArray.mk [2, 1, 2] [FP.nan, FP.nan, FP.fin 0, FP.fin 1]) 1 =
      process_fits Method.linear noKwargs
        (NDArray.mk [1, 2]
          (([FP.nan, FP.nan, FP.fin 0, FP.fin 1].drop (1 * (1 * 2))).take (1 * 2))) 1) ∧
    (process_fits Method.linear noKwargs (NDArray.mk [1, 1, 2, 1] [FP.fin 0, FP.fin 1]) 1 =
      Except.map (fun l => NDArray.mk [1, 1, 2, 1] l)
        (processEntries Method.linear noKwargs [FP.fin 0, FP.fin 1])) :=
  ⟨(rank_handling Method.linear noKwargs 1).1 2 1 2 [FP.nan, FP.nan, FP.fin 0, FP.fin 1]
      (by norm_num),
    (rank_handling Method.linear noKwargs 1).2 [1, 1, 2, 1] [FP.fin 0, FP.fin 1] (by norm_num)⟩

/-! ### Valid-data (finite-entry) facts -/

theorem validData_cons_fin (a : ℝ) (t : List FP) :
    validData (FP.fin a :: t) = a :: validData t := by simp [validData]

theorem validData_cons_nonfin {y : FP} (h : y.isFinite = false) (t : List FP) :
    validData (y :: t) = validData t := by
  cases y <;> simp_all [validData, FP.isFinite]

/-- With no finite entry the valid-data subset is empty. -/
theorem validData_eq_nil {data : List FP} (h : ∀ x ∈ data, x.isFinite = false) :
    validData data = [] := by
  induction data with
  | nil => rfl
  | cons y t ih =>
    rw [validData_cons_nonfin (h y (by simp))]
    exact ih (fun x hx => h x (by simp [hx]))

/-- Dropping the non-finite entries first does not change the valid-data
subset: the derivations only ever see the finite entries. -/
theorem validData_filter (data : List FP) :
    validData (data.filter (fun x => x.isFinite)) = validData data := by
  induction data with
  | nil => rfl
  | cons y t ih =>
    rw [List.filter_cons]
    cases y with
    | fin a =>
      rw [if_pos (show (FP.fin a).isFinite = true from rfl), validData_cons_fin,
        validData_cons_fin, ih]
    | nan =>
      rw [if_neg (show ¬FP.nan.isFinite = true by simp [FP.isFinite]), ih,
        validData_cons_nonfin (show FP.nan.isFinite = false from rfl)]
    | pinf =>
      rw [if_neg (show ¬FP.pinf.isFinite = true by simp [FP.isFinite]), ih,
        validData_cons_nonfin (show FP.pinf.isFinite = false from rfl)]
    | ninf =>
      rw [if_neg (show ¬FP.ninf.isFinite = true by simp [FP.isFinite]), ih,
        validData_cons_nonfin (show FP.ninf.isFinite = false from rfl)]

/-- Claim C6: on an input with no finite entries, every scaling method that
derives a missing `scale_min`/`scale_max` bound from the data (`linear`,
`log`, `sqrt`, `asinh` — i.e. all but `hist_eq`) fails loudly with the
empty-data error (the exception numpy raises from the reduction or
percentile over a zero-size array), rather than returning NaN bounds. -/
theorem all_nonfinite_fails (m : Method) (kw : Kwargs) (data : List FP)
    (hm : m ≠ Method.hist_eq)
    (hdata : ∀ x ∈ data, x.isFinite = false)
    (hmiss : kw.scale_min = none ∨ kw.scale_max = none) :
    scaleStep m kw data = Except.error PyErr.emptyData := by
  have hv : validData data = [] := validData_eq_nil hdata
  cases m with
  | hist_eq => exact absurd rfl hm
  | linear =>
    rcases hmiss with h | h
    · simp [scaleStep, linear_scaling, resolveExtrema, extremum, hv, h, listMin]
    · rcases hsm : kw.scale_min with _ | v <;>
        simp [scaleStep, linear_scaling, resolveExtrema, extremum, hv, h, hsm,
          listMin, listMax]
  | log =>
    rcases hmiss with h | h
    · simp [scaleStep, log_scaling, resolveExtrema, extremum, hv, h, listMin]
    · rcases hsm : kw.scale_min with _ | v <;>
        simp [scaleStep, log_scaling, resolveExtrema, extremum, hv, h, hsm,
          listMin, listMax]
  | asinh =>
    rcases hmiss with h | h
    · simp [scaleStep, asinh_scaling, resolveExtrema, extremum, hv, h, listMin]
    · rcases hsm : kw.scale_min with _ | v <;>
        simp [scaleStep, asinh_scaling, resolveExtrema, extremum, hv, h, hsm,
          listMin, listMax]
  | sqrt =>
    rcases hsm : kw.scale_min with _ | v <;> rcases hsx : kw.scale_max with _ | w
    · simp [scaleStep, sqrt_scaling, resolvePercentile, hv, hsm, hsx]
    · simp [scaleStep, sqrt_scaling, resolvePercentile, hv, hsm, hsx]
    · simp [scaleStep, sqrt_scaling, resolvePercentile, hv, hsm, hsx]
    · rw [hsm, hsx] at hmiss; simp at hmiss

/-- Witness for C6: `linear` on a single-NaN image. -/
theorem all_nonfinite_fails_witness :
    scaleStep Method.linear noKwargs [FP.nan] = Except.error PyErr.emptyData :=
  all_nonfinite_fails Method.linear noKwargs [FP.nan] (by simp)
    (by intro x hx; rw [List.mem_singleton.mp hx]; rfl) (Or.inl rfl)

/-- Claim C7: for data with at least one finite entry, the derived
`scale_min`/`scale_max` — extrema (used by `linear`, `log`, `asinh`) and
percentiles (used by `sqrt`) — are identical to those derived from the same
array with its non-finite entries removed: NaN/Inf entries never alter the
computed range. -/
theorem derived_bounds_ignore_nonfinite (data : List FP) (smin smax : Option ℝ) (p : ℝ × ℝ)
    (_hfin : ∃ x ∈ data, x.isFinite = true) :
    resolveExtrema data smin smax =
      resolveExtrema (data.filter (fun x => x.isFinite)) smin smax ∧
    resolvePercentile data smin smax p =
      resolvePercentile (data.filter (fun x => x.isFinite)) smin smax p := by
  refine ⟨?_, ?_⟩
  · unfold resolveExtrema; rw [validData_filter]
  · unfold resolvePercentile; rw [validData_filter]

/-- Witness for C7: one NaN next to one finite pixel. -/
theorem derived_bounds_ignore_nonfinite_witness :
    resolveExtrema [FP.nan, FP.fin 1] none none =
      resolveExtrema ([FP.nan, FP.fin 1].filter (fun x => x.isFinite)) none none ∧
    resolvePercentile [FP.nan, FP.fin 1] none none (1, 99) =
      resolvePercentile ([FP.nan, FP.fin 1].filter (fun x => x.isFinite)) none none (1, 99) :=
  derived_bounds_ignore_nonfinite [FP.nan, FP.fin 1] none none (1, 99)
    ⟨FP.fin 1, by simp, rfl⟩

/-! ### The asinh example scenario -/

theorem arsinh_two_pos : 0 < Real.arsinh 2 := by
  have h : Real.arsinh 2 = Real.log (2 + Real.sqrt (1 + 2 ^ 2)) := rfl
  rw [h]
  apply Real.log_pos
  nlinarith [Real.sqrt_nonneg (1 + (2:ℝ) ^ 2)]

/-- `arcsinh 2 < 2 * arcsinh 1`, via `log (2 + √5) < log (3 + 2√2)`. -/
theorem arsinh_two_lt_two_arsinh_one : Real.arsinh 2 < 2 * Real.arsinh 1 := by
  have e1 : Real.arsinh 1 = Real.log (1 + Real.sqrt 2) := by
    have h : Real.arsinh 1 = Real.log (1 + Real.sqrt (1 + 1 ^ 2)) := rfl
    rw [h]; norm_num
  have e2 : Real.arsinh 2 = Real.log (2 + Real.sqrt 5) := by
    have h : Real.arsinh 2 = Real.log (2 + Real.sqrt (1 + 2 ^ 2)) := rfl
    rw [h]; norm_num
  have h5 : Real.sqrt 5 < 2.3 := by
    rw [Real.sqrt_lt' (by norm_num)]; norm_num
  have h2 : (1.4 : ℝ) < Real.sqrt 2 := by
    nlinarith [Real.sq_sqrt (show (0:ℝ) ≤ 2 by norm_num), Real.sqrt_nonneg 2]
  have hlt : (2 + Real.sqrt 5 : ℝ) < 3 + 2 * Real.sqrt 2 := by linarith
  have hsq : ((1 + Real.sqrt 2) ^ 2 : ℝ) = 3 + 2 * Real.sqrt 2 := by
    have h22 : Real.sqrt 2 ^ 2 = 2 := Real.sq_sqrt (by norm_num)
    nlinarith [h22]
  calc Real.arsinh 2 = Real.log (2 + Real.sqrt 5) := e2
    _ < Real.log (3 + 2 * Real.sqrt 2) := by
        apply Real.log_lt_log (by positivity) hlt
    _ = Real.log ((1 + Real.sqrt 2) ^ 2) := by rw [hsq]
    _ = 2 * Real.log (1 + Real.sqrt 2) := by rw [Real.log_pow]; norm_num
    _ = 2 * Real.arsinh 1 := by rw [e1]

theorem arsinh_ratio_gt_half : 1 / 2 < Real.arsinh 1 / Real.arsinh 2 := by
  rw [lt_div_iff₀ arsinh_two_pos]
  linarith [arsinh_two_lt_two_arsinh_one]

/-- `asinh_scaling([-1,0,1], scale_min=-1, scale_max=1, non_linear=1)`
evaluated: `[0, arcsinh 1 / arcsinh 2, 1]`. -/
theorem asinh_demo :
    asinh_scaling [FP.fin (-1), FP.fin 0, FP.fin 1] (some (-1)) (some 1) 1 =
    Except.ok [FP.fin 0, FP.fin (Real.arsinh 1 / Real.arsinh 2), FP.fin 1] := by
  have h2 : Real.arsinh 2 ≠ 0 := ne_of_gt arsinh_two_pos
  norm_num [asinh_scaling, resolveExtrema, extremum, fasinh, fsub, fdiv,
    Real.arsinh_zero, h2, div_self h2]

/-- Claim C3 (amended): `asinh_scaling([-1,0,1], scale_min=-1, scale_max=1,
non_linear=1.0)` maps the middle entry 0 to
`arcsinh((0 - scale_min)/non_linear) / arcsinh((scale_max - scale_min)/non_linear)
= arcsinh 1 / arcsinh 2 ≈ 0.61`, which is strictly greater than the
midpoint value 0.5 (the spec's `arcsinh(0) = 0` reasoning does not apply:
the numerator at the middle entry is `arcsinh 1`, not `arcsinh 0`). -/
theorem asinh_midpoint_amended :
    asinh_scaling [FP.fin (-1), FP.fin 0, FP.fin 1] (some (-1)) (some 1) 1 =
      Except.ok [FP.fin 0, FP.fin (Real.arsinh 1 / Real.arsinh 2), FP.fin 1] ∧
    1 / 2 < Real.arsinh 1 / Real.arsinh 2 :=
  ⟨asinh_demo, arsinh_ratio_gt_half⟩

/-- Claim C3 counterexample: at those exact parameters the middle entry maps
to `arcsinh 1 / arcsinh 2`, and that value is not `0.5` as claimed. -/
theorem asinh_midpoint_counterexample :
    asinh_scaling [FP.fin (-1), FP.fin 0, FP.fin 1] (some (-1)) (some 1) 1 =
      Except.ok [FP.fin 0, FP.fin (Real.arsinh 1 / Real.arsinh 2), FP.fin 1] ∧
    Real.arsinh 1 / Real.arsinh 2 ≠ 1 / 2 :=
  ⟨asinh_demo, ne_of_gt arsinh_ratio_gt_half⟩

/-! ### Piecewise-linear interpolation: range and monotonicity -/

/-- Interpolated values stay inside any band containing the knot values. -/
theorem interpKnots_bounds (f : ℕ → ℝ) (m : ℕ) (lo hi : ℝ)
    (h : ∀ i, i ≤ m → lo ≤ f i ∧ f i ≤ hi) (x : ℝ) :
    lo ≤ interpKnots f m x ∧ interpKnots f m x ≤ hi := by
  unfold interpKnots
  by_cases hx0 : x ≤ 0
  · rw [if_pos hx0]; exact h 0 (Nat.zero_le m)
  · rw [if_neg hx0]
    by_cases hxm : (m : ℝ) ≤ x
    · rw [if_pos hxm]; exact h m le_rfl
    · rw [if_neg hxm]
      push_neg at hx0 hxm
      have hx0' : 0 ≤ x := le_of_lt hx0
      have hfl : Nat.floor x < m := (Nat.floor_lt hx0').mpr hxm
      have h1 := h (Nat.floor x) (le_of_lt hfl)
      have h2 := h (Nat.floor x + 1) hfl
      have ht0 : 0 ≤ x - (Nat.floor x : ℝ) := sub_nonneg.mpr (Nat.floor_le hx0')
      have ht1 : x - (Nat.floor x : ℝ) ≤ 1 := by
        have := Nat.lt_floor_add_one x; linarith
      constructor <;> nlinarith [h1.1, h1.2, h2.1, h2.2]

/-- Interpolation through knot values that are monotone (up to index `m`)
is a monotone function of the abscissa, clamping included. -/
theorem interpKnots_mono (f : ℕ → ℝ) (m : ℕ)
    (hf : ∀ i j, i ≤ j → j ≤ m → f i ≤ f j) {x y : ℝ} (hxy : x ≤ y) :
    interpKnots f m x ≤ interpKnots f m y := by
  have hbounds : ∀ z, f 0 ≤ interpKnots f m z ∧ interpKnots f m z ≤ f m :=
    fun z => interpKnots_bounds f m (f 0) (f m)
      (fun i hi => ⟨hf 0 i (Nat.zero_le i) hi, hf i m hi le_rfl⟩) z
  by_cases hx0 : x ≤ 0
  · have hx : interpKnots f m x = f 0 := by rw [interpKnots, if_pos hx0]
    rw [hx]; exact (hbounds y).1
  · by_cases hym : (m : ℝ) ≤ y
    · have hy : interpKnots f m y = f m := by
        rw [interpKnots, if_neg (by push_neg at hx0 ⊢; linarith), if_pos hym]
      rw [hy]; exact (hbounds x).2
    · push_neg at hx0 hym
      have hxm : x < (m : ℝ) := lt_of_le_of_lt hxy hym
      have hy0 : (0 : ℝ) < y := lt_of_lt_of_le hx0 hxy
      have hxval : interpKnots f m x =
          f (Nat.floor x) +
            (x - (Nat.floor x : ℝ)) * (f (Nat.floor x + 1) - f (Nat.floor x)) := by
        rw [interpKnots, if_neg (not_le.mpr hx0), if_neg (not_le.mpr hxm)]
      have hyval : interpKnots f m y =
          f (Nat.floor y) +
            (y - (Nat.floor y : ℝ)) * (f (Nat.floor y + 1) - f (Nat.floor y)) := by
        rw [interpKnots, if_neg (not_le.mpr hy0), if_neg (not_le.mpr hym)]
      have hfx : Nat.floor x < m := (Nat.floor_lt (le_of_lt hx0)).mpr hxm
      have hfy : Nat.floor y < m := (Nat.floor_lt (le_of_lt hy0)).mpr hym
      have hij : Nat.floor x ≤ Nat.floor y := Nat.floor_mono hxy
      have hdx : 0 ≤ f (Nat.floor x + 1) - f (Nat.floor x) :=
        sub_nonneg.mpr (hf _ _ (Nat.le_succ _) hfx)
      have hdy : 0 ≤ f (Nat.floor y + 1) - f (Nat.floor y) :=
        sub_nonneg.mpr (hf _ _ (Nat.le_succ _) hfy)
      have htx0 : 0 ≤ x - (Nat.floor x : ℝ) := sub_nonneg.mpr (Nat.floor_le (le_of_lt hx0))
      have htx1 : x - (Nat.floor x : ℝ) ≤ 1 := by
        have := Nat.lt_floor_add_one x; linarith
      have hty0 : 0 ≤ y - (Nat.floor y : ℝ) := sub_nonneg.mpr (Nat.floor_le (le_of_lt hy0))
      rcases eq_or_lt_of_le hij with heq | hlt
      · rw [hxval, hyval, ← heq]
        nlinarith [hdx]
      · have hchain : f (Nat.floor x + 1) ≤ f (Nat.floor y) := hf _ _ hlt (le_of_lt hfy)
        rw [hxval, hyval]
        nlinarith [mul_nonneg hty0 hdy, mul_nonneg (sub_nonneg.mpr htx1) hdx]

theorem sortR_sorted (l : List ℝ) : (sortR l).Sorted (fun a b => a ≤ b) :=
  List.sorted_insertionSort _ l

/-- `getD` on a sorted list is monotone inside the list. -/
theorem sorted_getD_mono {s : List ℝ} (hs : s.Sorted (fun a b => a ≤ b))
    {i j : ℕ} (hij : i ≤ j) (hj : j < s.length) : s.getD i 0 ≤ s.getD j 0 := by
  have hi : i < s.length := lt_of_le_of_lt hij hj
  rw [List.getD_eq_get s 0 hi, List.getD_eq_get s 0 hj]
  exact hs.rel_get_of_le hij

/-- `np.percentile` is monotone in the requested percentile. -/
theorem percentileR_mono (l : List ℝ) {q1 q2 : ℝ} (h : q1 ≤ q2) :
    percentileR l q1 ≤ percentileR l q2 := by
  unfold percentileR
  apply interpKnots_mono
  · intro i j hij hj
    rcases Nat.eq_zero_or_pos (sortR l).length with hlen | hlen
    · have hi0 : i = 0 := by omega
      have hj0 : j = 0 := by omega
      rw [hi0, hj0]
    · exact sorted_getD_mono (sortR_sorted l) hij (by omega)
  · have hc : (0 : ℝ) ≤ (((sortR l).length - 1 : ℕ) : ℝ) := Nat.cast_nonneg _
    apply mul_le_mul_of_nonneg_right _ hc
    linarith

theorem mem_validData {data : List FP} {a : ℝ} (h : FP.fin a ∈ data) :
    a ∈ validData data := by
  simp only [validData, List.mem_filterMap]
  exact ⟨FP.fin a, h, rfl⟩

/-- Claim C9: for data with at least one finite entry, widening the
percentile interval never decreases the `scale_max - scale_min` range that
`sqrt_scaling`'s percentile derivation computes. -/
theorem percentile_range_mono (data : List FP) (p1lo p1hi p2lo p2hi : ℝ)
    (hdata : ∃ x ∈ data, x.isFinite = true)
    (h0 : 0 ≤ p2lo) (h1 : p2lo ≤ p1lo) (h2 : p1lo ≤ p1hi) (h3 : p1hi ≤ p2hi)
    (h4 : p2hi ≤ 100) :
    resolvePercentile data none none (p1lo, p1hi) =
      Except.ok (percentileR (validData data) p1lo, percentileR (validData data) p1hi) ∧
    resolvePercentile data none none (p2lo, p2hi) =
      Except.ok (percentileR (validData data) p2lo, percentileR (validData data) p2hi) ∧
    percentileR (validData data) p1hi - percentileR (validData data) p1lo ≤
      percentileR (validData data) p2hi - percentileR (validData data) p2lo := by
  obtain ⟨x, hx, hfin⟩ := hdata
  have hvne : validData data ≠ [] := by
    cases x <;> simp [FP.isFinite] at hfin
    exact List.ne_nil_of_mem (mem_validData hx)
  rcases hv : validData data with _ | ⟨a, t⟩
  · exact absurd hv hvne
  · refine ⟨by simp [resolvePercentile, hv], by simp [resolvePercentile, hv], ?_⟩
    have hlo := percentileR_mono (a :: t) h1
    have hhi := percentileR_mono (a :: t) h3
    linarith

/-- Witness for C9: the two-pixel image `[0, 1]` with the default (1, 99)
interval against the full (0, 100) interval. -/
theorem percentile_range_mono_witness :
    resolvePercentile [FP.fin 0, FP.fin 1] none none (1, 99) =
      Except.ok (percentileR (validData [FP.fin 0, FP.fin 1]) 1,
        percentileR (validData [FP.fin 0, FP.fin 1]) 99) ∧
    resolvePercentile [FP.fin 0, FP.fin 1] none none (0, 100) =
      Except.ok (percentileR (validData [FP.fin 0, FP.fin 1]) 0,
        percentileR (validData [FP.fin 0, FP.fin 1]) 100) ∧
    percentileR (validData [FP.fin 0, FP.fin 1]) 99 -
        percentileR (validData [FP.fin 0, FP.fin 1]) 1 ≤
      percentileR (validData [FP.fin 0, FP.fin 1]) 100 -
        percentileR (validData [FP.fin 0, FP.fin 1]) 0 :=
  percentile_range_mono [FP.fin 0, FP.fin 1] 1 99 0 100
    ⟨FP.fin 0, by simp, rfl⟩ (by norm_num) (by norm_num) (by norm_num) (by norm_num)
    (by norm_num)

/-! ### Histogram-equalization: the lookup curve and its properties -/

/-- The cumulative histogram is monotone in the bin index. -/
theorem cdf_mono (data : List FP) {i j : ℕ} (hij : i ≤ j) : cdf data i ≤ cdf data j := by
  unfold cdf
  apply Finset.sum_le_sum_of_subset
  intro k hk
  simp only [Finset.mem_range] at hk ⊢
  omega

theorem cdf_le_cdfPeak (data : List FP) {j : ℕ} (hj : j ≤ 255) :
    cdf data j ≤ cdfPeak data :=
  Finset.le_sup (Finset.mem_range.mpr (by omega))

/-- With at least one in-range pixel (`cdf.max() > 0`) the normalized curve
is real-valued: `cdf * hist.max() / cdf.max()`. -/
theorem cdfNormalized_eq_fin {data : List FP} (h : 0 < cdfPeak data) (j : ℕ) :
    cdfNormalized data j =
      FP.fin ((cdf data j : ℝ) * (histPeak data : ℝ) / (cdfPeak data : ℝ)) := by
  have hc : ((cdfPeak data : ℕ) : ℝ) ≠ 0 := by
    have : (0:ℝ) < ((cdfPeak data : ℕ) : ℝ) := by exact_mod_cast h
    linarith
  simp only [cdfNormalized, fdiv]
  rw [if_neg hc]

/-- With no in-range pixel the normalized curve is the float `0.0/0`: NaN. -/
theorem cdfNormalized_nan {data : List FP} (h : cdfPeak data = 0) {j : ℕ} (hj : j ≤ 255) :
    cdfNormalized data j = FP.nan := by
  have hcdf : cdf data j = 0 := Nat.le_zero.mp (h ▸ cdf_le_cdfPeak data hj)
  simp only [cdfNormalized, fdiv, hcdf, h]
  norm_num

/-- On a finite pixel, the lookup is real interpolation through the real
curve whenever `cdf.max() > 0`. -/
theorem lookup_fin_of_pos {data : List FP} (h : 0 < cdfPeak data) (a : ℝ) :
    histEqLookup data (FP.fin a) =
      FP.fin (interpKnots
        (fun j => (cdf data j : ℝ) * (histPeak data : ℝ) / (cdfPeak data : ℝ)) 255 a) := by
  simp only [histEqLookup, interpKnots]
  by_cases h0 : a ≤ 0
  · rw [if_pos h0, if_pos h0, cdfNormalized_eq_fin h]
  · rw [if_neg h0, if_neg h0]
    by_cases h255 : (255 : ℝ) ≤ a
    · rw [if_pos h255, if_pos (show (((255:ℕ)) : ℝ) ≤ a by exact_mod_cast h255),
        cdfNormalized_eq_fin h]
    · rw [if_neg h255, if_neg (show ¬(((255:ℕ)) : ℝ) ≤ a by exact_mod_cast h255),
        cdfNormalized_eq_fin h, cdfNormalized_eq_fin h]
      simp [fadd, fmul, fsub]

/-- With no in-range pixel every lookup result is NaN. -/
theorem lookup_nan_of_zero {data : List FP} (h : cdfPeak data = 0) (x : FP) :
    histEqLookup data x = FP.nan := by
  have h0 := cdfNormalized_nan h (show (0:ℕ) ≤ 255 by norm_num)
  have h255 := cdfNormalized_nan h (le_refl 255)
  cases x with
  | nan => rfl
  | pinf => exact h255
  | ninf => exact h0
  | fin a =>
    simp only [histEqLookup]
    by_cases ha : a ≤ 0
    · rw [if_pos ha]; exact h0
    · rw [if_neg ha]
      by_cases hb : (255 : ℝ) ≤ a
      · rw [if_pos hb]; exact h255
      · rw [if_neg hb]
        have hfl : Nat.floor a < 255 := by
          apply (Nat.floor_lt (le_of_lt (not_le.mp ha))).mpr
          push_neg at hb
          exact_mod_cast hb
        rw [cdfNormalized_nan h (by omega), cdfNormalized_nan h (by omega)]
        rfl

/-- The real curve values lie in `[0, hist.max()]`. -/
theorem cdfNormalized_bounds {data : List FP} (h : 0 < cdfPeak data) {j : ℕ} (hj : j ≤ 255) :
    0 ≤ (cdf data j : ℝ) * (histPeak data : ℝ) / (cdfPeak data : ℝ) ∧
    (cdf data j : ℝ) * (histPeak data : ℝ) / (cdfPeak data : ℝ) ≤ (histPeak data : ℝ) := by
  have hc : (0:ℝ) < ((cdfPeak data : ℕ) : ℝ) := by exact_mod_cast h
  constructor
  · positivity
  · rw [div_le_iff₀ hc]
    have h1 : (cdf data j : ℝ) ≤ ((cdfPeak data : ℕ) : ℝ) := by
      exact_mod_cast cdf_le_cdfPeak data hj
    nlinarith [show (0:ℝ) ≤ (histPeak data : ℝ) from Nat.cast_nonneg _,
      show (0:ℝ) ≤ (cdf data j : ℝ) from Nat.cast_nonneg _]

/-! ### hist_eq: concrete evaluations -/

theorem inBin_zero_entry_zero : inBin 0 (FP.fin 0) = true := by
  simp only [inBin]
  rw [if_neg (by norm_num)]
  simp only [decide_eq_true_eq]
  norm_num

theorem inBin_zero_entry {i : ℕ} (hi : i ≠ 0) : inBin i (FP.fin 0) = false := by
  simp only [inBin]
  rcases eq_or_ne i 255 with rfl | h255
  · rw [if_pos rfl, decide_eq_false_iff_not]
    norm_num
  · rw [if_neg h255, decide_eq_false_iff_not]
    intro hcon
    have h1 : (0:ℝ) < (i : ℝ) := by exact_mod_cast Nat.pos_of_ne_zero hi
    linarith [hcon.1]

theorem histCount_pair_zeros (i : ℕ) :
    histCount [FP.fin 0, FP.fin 0] i = if i = 0 then 2 else 0 := by
  rcases eq_or_ne i 0 with rfl | hi
  · rw [if_pos rfl]
    simp [histCount, List.countP_cons, inBin_zero_entry_zero]
  · rw [if_neg hi]
    simp [histCount, List.countP_cons, inBin_zero_entry hi]

theorem cdf_pair_zeros (j : ℕ) : cdf [FP.fin 0, FP.fin 0] j = 2 := by
  unfold cdf
  rw [Finset.sum_congr rfl (fun i _ => histCount_pair_zeros i)]
  rw [Finset.sum_ite_eq' (Finset.range (j + 1)) 0 (fun _ => 2)]
  simp

theorem cdfPeak_pair_zeros : cdfPeak [FP.fin 0, FP.fin 0] = 2 := by
  unfold cdfPeak
  rw [Finset.sup_congr rfl (fun j _ => cdf_pair_zeros j)]
  exact Finset.sup_const ⟨0, by norm_num⟩ 2

theorem histPeak_pair_zeros : histPeak [FP.fin 0, FP.fin 0] = 2 := by
  unfold histPeak
  apply le_antisymm
  · apply Finset.sup_le
    intro i _
    rw [histCount_pair_zeros]
    split <;> norm_num
  · have h0 : (0:ℕ) ∈ Finset.range 256 := by norm_num
    calc (2:ℕ) = histCount [FP.fin 0, FP.fin 0] 0 := by rw [histCount_pair_zeros]; norm_num
      _ ≤ _ := Finset.le_sup h0

/-- `hist_eq_scaling` on `[0, 0]`: both pixels map to the peak-normalized
cumulative value `2·2/2 = 2` — outside `[0, 1]`. -/
theorem hist_eq_demo : hist_eq_scaling [FP.fin 0, FP.fin 0] = [FP.fin 2, FP.fin 2] := by
  have hlook : histEqLookup [FP.fin 0, FP.fin 0] (FP.fin 0) = FP.fin 2 := by
    simp only [histEqLookup]
    rw [if_pos le_rfl]
    unfold cdfNormalized
    rw [cdf_pair_zeros, histPeak_pair_zeros, cdfPeak_pair_zeros]
    norm_num [fdiv]
  simp [hist_eq_scaling, hlook]

/-- Claim C8: `hist_eq_scaling` (the 256-bin histogram over edges `0..256`,
its cumulative sum rescaled to the peak bin count, piecewise-linear lookup,
reshape) keeps every finite output entry in `[0, max histogram bin count]`,
and is not itself normalized to `[0, 1]`: on `[0, 0]` it outputs 2 at every
pixel.  (It derives no `scale_min`/`scale_max`: its definition consumes no
bounds.) -/
theorem hist_eq_range_and_not_normalized :
    (∀ (data : List FP), ∀ y ∈ hist_eq_scaling data, y.isFinite = true →
      0 ≤ y.toReal ∧ y.toReal ≤ (histPeak data : ℝ)) ∧
    hist_eq_scaling [FP.fin 0, FP.fin 0] = [FP.fin 2, FP.fin 2] := by
  refine ⟨?_, hist_eq_demo⟩
  intro data y hy hfin
  simp only [hist_eq_scaling, List.mem_map] at hy
  obtain ⟨x, hx, rfl⟩ := hy
  rcases Nat.eq_zero_or_pos (cdfPeak data) with h0 | hpos
  · rw [lookup_nan_of_zero h0] at hfin
    simp [FP.isFinite] at hfin
  · cases x with
    | nan => simp [histEqLookup, FP.isFinite] at hfin
    | pinf =>
      rw [show histEqLookup data FP.pinf = cdfNormalized data 255 from rfl,
        cdfNormalized_eq_fin hpos]
      simp only [FP.toReal]
      exact cdfNormalized_bounds hpos (le_refl 255)
    | ninf =>
      rw [show histEqLookup data FP.ninf = cdfNormalized data 0 from rfl,
        cdfNormalized_eq_fin hpos]
      simp only [FP.toReal]
      exact cdfNormalized_bounds hpos (by norm_num)
    | fin a =>
      rw [lookup_fin_of_pos hpos]
      simp only [FP.toReal]
      exact interpKnots_bounds _ 255 0 (histPeak data : ℝ)
        (fun j hj => cdfNormalized_bounds hpos hj) a

/-- Witness for C8: the pixel value 2 produced on `[0, 0]` is finite and
lies in `[0, hist.max()]`. -/
theorem hist_eq_range_witness :
    0 ≤ (FP.fin 2).toReal ∧ (FP.fin 2).toReal ≤ (histPeak [FP.fin 0, FP.fin 0] : ℝ) :=
  hist_eq_range_and_not_normalized.1 [FP.fin 0, FP.fin 0] (FP.fin 2)
    (by rw [hist_eq_demo]; simp) rfl

/-- Claim C10 (amended): on data whose histogram is non-degenerate (at least
one entry in the binning range `[0, 256]`, i.e. `cdf.max() > 0`),
`hist_eq_scaling`'s per-pixel lookup is monotone: finite entries `x ≤ y`
produce outputs with `out(x) <= out(y)` (IEEE comparison), because the
peak-normalized cumulative histogram is non-decreasing and clamped linear
interpolation through it preserves order. -/
theorem hist_eq_monotone (data : List FP) (x y : ℝ)
    (hdeg : 0 < cdfPeak data)
    (hx : FP.fin x ∈ data) (hy : FP.fin y ∈ data) (hxy : x ≤ y) :
    FP.fle (histEqLookup data (FP.fin x)) (histEqLookup data (FP.fin y)) = true := by
  rw [lookup_fin_of_pos hdeg, lookup_fin_of_pos hdeg]
  simp only [FP.fle, decide_eq_true_eq]
  apply interpKnots_mono _ 255 _ hxy
  intro i j hij hj
  have hc : (0:ℝ) < ((cdfPeak data : ℕ) : ℝ) := by exact_mod_cast hdeg
  have hcdf : (cdf data i : ℝ) ≤ (cdf data j : ℝ) := by exact_mod_cast cdf_mono data hij
  have hH : (0:ℝ) ≤ (histPeak data : ℝ) := Nat.cast_nonneg _
  exact div_le_div_of_nonneg_right (mul_le_mul_of_nonneg_right hcdf hH) (le_of_lt hc)

theorem inBin_zero_one : inBin 0 (FP.fin 1) = false := by
  simp only [inBin]
  rw [if_neg (by norm_num), decide_eq_false_iff_not]
  norm_num

theorem histCount_mix_zero : histCount [FP.fin 0, FP.fin 1] 0 = 1 := by
  simp [histCount, List.countP_cons, inBin_zero_entry_zero, inBin_zero_one]

/-- Witness for C10: the image `[0, 1]` has a non-degenerate histogram and
its two pixels map to ordered outputs. -/
theorem hist_eq_monotone_witness :
    0 < cdfPeak [FP.fin 0, FP.fin 1] ∧
    FP.fle (histEqLookup [FP.fin 0, FP.fin 1] (FP.fin 0))
      (histEqLookup [FP.fin 0, FP.fin 1] (FP.fin 1)) = true := by
  have hpos : 0 < cdfPeak [FP.fin 0, FP.fin 1] := by
    have h2 : histCount [FP.fin 0, FP.fin 1] 0 ≤ cdf [FP.fin 0, FP.fin 1] 255 := by
      unfold cdf
      exact Finset.single_le_sum (fun i _ => Nat.zero_le _) (by norm_num)
    have h3 : cdf [FP.fin 0, FP.fin 1] 255 ≤ cdfPeak [FP.fin 0, FP.fin 1] :=
      Finset.le_sup (by norm_num)
    have h1 := histCount_mix_zero
    omega
  exact ⟨hpos,
    hist_eq_monotone [FP.fin 0, FP.fin 1] 0 1 hpos (by simp) (by simp) (by norm_num)⟩

theorem inBin_big {i : ℕ} (hi : i < 256) {a : ℝ} (ha : 300 ≤ a) :
    inBin i (FP.fin a) = false := by
  simp only [inBin]
  rcases eq_or_ne i 255 with rfl | h
  · rw [if_pos rfl, decide_eq_false_iff_not]
    intro hcon; linarith [hcon.2]
  · rw [if_neg h, decide_eq_false_iff_not]
    intro hcon
    have h1 : (i : ℝ) + 1 ≤ 256 := by exact_mod_cast hi
    linarith [hcon.2]

/-- `[500, 600]` has no pixel in the binning range, so `cdf.max() = 0`. -/
theorem cdfPeak_big_zero : cdfPeak [FP.fin 500, FP.fin 600] = 0 := by
  have hcount : ∀ i < 256, histCount [FP.fin 500, FP.fin 600] i = 0 := by
    intro i hi
    simp [histCount, List.countP_cons, inBin_big hi (show (300:ℝ) ≤ 500 by norm_num),
      inBin_big hi (show (300:ℝ) ≤ 600 by norm_num)]
  have hcdf : ∀ j ∈ Finset.range 256, cdf [FP.fin 500, FP.fin 600] j = 0 := by
    intro j hj
    unfold cdf
    apply Finset.sum_eq_zero
    intro i hi
    simp only [Finset.mem_range] at hi hj
    exact hcount i (by omega)
  refine Nat.le_zero.mp (Finset.sup_le ?_)
  intro j hj
  rw [hcdf j hj]

/-- Claim C10 counterexample: on `[500, 600]` — all data outside the
histogram's `[0, 256]` binning range — `cdf.max() = 0`, the normalized
curve is the float `0/0 = NaN`, and both lookups return NaN; for the
entries `x = 500 ≤ y = 600` the claimed `out(x) <= out(y)` is false, since
NaN compares false. -/
theorem hist_eq_monotone_counterexample :
    FP.fle (histEqLookup [FP.fin 500, FP.fin 600] (FP.fin 500))
      (histEqLookup [FP.fin 500, FP.fin 600] (FP.fin 600)) = false := by
  rw [lookup_nan_of_zero cdfPeak_big_zero, lookup_nan_of_zero cdfPeak_big_zero]
  rfl

/-! ### Constant images: replicate utilities -/

theorem validData_replicate (n : ℕ) (c : ℝ) :
    validData (List.replicate n (FP.fin c)) = List.replicate n c := by
  induction n with
  | zero => rfl
  | succ k ih => rw [List.replicate_succ, validData_cons_fin, ih, List.replicate_succ]

theorem foldl_min_replicate (k : ℕ) (c : ℝ) :
    List.foldl min c (List.replicate k c) = c := by
  induction k with
  | zero => rfl
  | succ j ih => rw [List.replicate_succ, List.foldl_cons, min_self, ih]

theorem foldl_max_replicate (k : ℕ) (c : ℝ) :
    List.foldl max c (List.replicate k c) = c := by
  induction k with
  | zero => rfl
  | succ j ih => rw [List.replicate_succ, List.foldl_cons, max_self, ih]

/-- Extrema-derived bounds of a constant image collapse to `(c, c)`. -/
theorem resolveExtrema_const {n : ℕ} (hn : 0 < n) (c : ℝ) :
    resolveExtrema (List.replicate n (FP.fin c)) none none = Except.ok (c, c) := by
  obtain ⟨k, rfl⟩ : ∃ k, n = k + 1 := ⟨n - 1, by omega⟩
  have hv : validData (List.replicate (k + 1) (FP.fin c)) = c :: List.replicate k c := by
    rw [validData_replicate, List.replicate_succ]
  simp only [resolveExtrema, hv, listMin, listMax, foldl_min_replicate,
    foldl_max_replicate, extremum]

theorem sortR_replicate (n : ℕ) (c : ℝ) :
    sortR (List.replicate n c) = List.replicate n c := by
  have hp : (sortR (List.replicate n c)).Perm (List.replicate n c) :=
    List.perm_insertionSort _ _
  refine List.eq_replicate.mpr ⟨?_, ?_⟩
  · simpa using hp.length_eq
  · intro b hb
    exact List.eq_of_mem_replicate (hp.mem_iff.mp hb)

/-- Interpolation through a constant curve is that constant. -/
theorem interpKnots_const_on (f : ℕ → ℝ) (m : ℕ) (c : ℝ) (hf : ∀ j, j ≤ m → f j = c)
    (x : ℝ) : interpKnots f m x = c := by
  unfold interpKnots
  by_cases h1 : x ≤ 0
  · rw [if_pos h1]; exact hf 0 (Nat.zero_le m)
  · rw [if_neg h1]
    by_cases h2 : (m : ℝ) ≤ x
    · rw [if_pos h2]; exact hf m le_rfl
    · rw [if_neg h2]
      push_neg at h1 h2
      have hfl : Nat.floor x < m := (Nat.floor_lt (le_of_lt h1)).mpr h2
      rw [hf _ (by omega), hf _ (by omega)]
      ring

/-- Every percentile of a constant sample is that constant. -/
theorem percentileR_replicate {n : ℕ} (hn : 0 < n) (c q : ℝ) :
    percentileR (List.replicate n c) q = c := by
  unfold percentileR
  rw [sortR_replicate]
  apply interpKnots_const_on
  intro j hj
  have hjn : j < n := by simp only [List.length_replicate] at hj; omega
  rw [List.getD_eq_get _ _ (by simpa using hjn)]
  simp

/-- Percentile-derived bounds of a constant image collapse to `(c, c)`. -/
theorem resolvePercentile_const {n : ℕ} (hn : 0 < n) (c : ℝ) (p : ℝ × ℝ) :
    resolvePercentile (List.replicate n (FP.fin c)) none none p = Except.ok (c, c) := by
  obtain ⟨k, rfl⟩ : ∃ k, n = k + 1 := ⟨n - 1, by omega⟩
  have hv : validData (List.replicate (k + 1) (FP.fin c)) = c :: List.replicate k c := by
    rw [validData_replicate, List.replicate_succ]
  simp only [resolvePercentile, hv, Option.getD]
  rw [← List.replicate_succ, percentileR_replicate (by omega) c p.1,
    percentileR_replicate (by omega) c p.2]

theorem nanminL_replicate_nan (n : ℕ) : nanminL (List.replicate n FP.nan) = FP.nan := by
  induction n with
  | zero => rfl
  | succ k ih => rw [List.replicate_succ, nanminL_cons, ih]; rfl

theorem nanmaxL_replicate_nan (n : ℕ) : nanmaxL (List.replicate n FP.nan) = FP.nan := by
  induction n with
  | zero => rfl
  | succ k ih => rw [List.replicate_succ, nanmaxL_cons, ih]; rfl

/-- Renormalizing an all-NaN array leaves it all-NaN. -/
theorem renorm_replicate_nan (n : ℕ) :
    renorm (List.replicate n FP.nan) = List.replicate n FP.nan := by
  unfold renorm
  rw [nanminL_replicate_nan, nanmaxL_replicate_nan, List.map_replicate]
  rfl

theorem nanminL_replicate_fin {n : ℕ} (hn : 0 < n) (v : ℝ) :
    nanminL (List.replicate n (FP.fin v)) = FP.fin v := by
  induction n with
  | zero => omega
  | succ k ih =>
    rw [List.replicate_succ, nanminL_cons]
    rcases Nat.eq_zero_or_pos k with rfl | hk
    · rfl
    · rw [ih hk]; simp [nmin2]

theorem nanmaxL_replicate_fin {n : ℕ} (hn : 0 < n) (v : ℝ) :
    nanmaxL (List.replicate n (FP.fin v)) = FP.fin v := by
  induction n with
  | zero => omega
  | succ k ih =>
    rw [List.replicate_succ, nanmaxL_cons]
    rcases Nat.eq_zero_or_pos k with rfl | hk
    · rfl
    · rw [ih hk]; simp [nmax2]

/-- Renormalizing a constant finite array is the float `0/0` at every
pixel: all-NaN. -/
theorem renorm_replicate_fin {n : ℕ} (hn : 0 < n) (v : ℝ) :
    renorm (List.replicate n (FP.fin v)) = List.replicate n FP.nan := by
  unfold renorm
  rw [nanminL_replicate_fin hn, nanmaxL_replicate_fin hn, List.map_replicate]
  congr 1
  simp [fsub, fdiv]

/-! ### Constant images through each scaling method -/

theorem scaleStep_linear_const {n : ℕ} (hn : 0 < n) (c : ℝ) :
    scaleStep Method.linear noKwargs (List.replicate n (FP.fin c)) =
      Except.ok (List.replicate n FP.nan) := by
  simp only [scaleStep, noKwargs, linear_scaling, resolveExtrema_const hn c,
    List.map_replicate]
  norm_num [clipFP, fmax2, fmin2, fsub, fdiv]

theorem scaleStep_log_const {n : ℕ} (hn : 0 < n) (c : ℝ) :
    scaleStep Method.log noKwargs (List.replicate n (FP.fin c)) =
      Except.ok (List.replicate n FP.nan) := by
  simp only [scaleStep, noKwargs, log_scaling, resolveExtrema_const hn c,
    List.map_replicate]
  norm_num [clipFP, fmax2, fmin2, fsub, fadd, flog10, fdiv, Real.logb_one]

theorem scaleStep_sqrt_const {n : ℕ} (hn : 0 < n) (c : ℝ) :
    scaleStep Method.sqrt noKwargs (List.replicate n (FP.fin c)) =
      Except.ok (List.replicate n FP.nan) := by
  simp only [scaleStep, noKwargs, sqrt_scaling, Option.getD,
    resolvePercentile_const hn c, List.map_replicate]
  norm_num [clipFP, fmax2, fmin2, fsub, fsqrt, fdiv, Real.sqrt_zero]

theorem scaleStep_asinh_const {n : ℕ} (hn : 0 < n) (c : ℝ) :
    scaleStep Method.asinh noKwargs (List.replicate n (FP.fin c)) =
      Except.ok (List.replicate n FP.nan) := by
  simp only [scaleStep, noKwargs, asinh_scaling, Option.getD,
    resolveExtrema_const hn c, List.map_replicate]
  norm_num [fasinh, fsub, fdiv, Real.arsinh_zero]

/-- The unique bin of a constant in-range pixel value. -/
theorem inBin_const_iff {c : ℝ} (h0 : 0 ≤ c) (h256 : c ≤ 256) {i : ℕ} (hi : i < 256) :
    (inBin i (FP.fin c) = true) ↔ i = min (Nat.floor c) 255 := by
  simp only [inBin]
  rcases lt_or_le c 255 with hc | hc
  · have hfl : Nat.floor c < 255 := (Nat.floor_lt h0).mpr (by exact_mod_cast hc)
    have hmin : min (Nat.floor c) 255 = Nat.floor c := min_eq_left (by omega)
    rw [hmin]
    rcases eq_or_ne i 255 with rfl | h
    · rw [if_pos rfl]
      simp only [decide_eq_true_eq]
      constructor
      · intro hcon; linarith [hcon.1]
      · intro heq; exact absurd heq (by omega)
    · rw [if_neg h]
      simp only [decide_eq_true_eq]
      constructor
      · intro hcon
        exact ((Nat.floor_eq_iff h0).mpr ⟨hcon.1, hcon.2⟩).symm
      · rintro rfl
        exact ⟨Nat.floor_le h0, Nat.lt_floor_add_one c⟩
  · have hfl : 255 ≤ Nat.floor c := Nat.le_floor (by exact_mod_cast hc)
    have hmin : min (Nat.floor c) 255 = 255 := min_eq_right (by omega)
    rw [hmin]
    rcases eq_or_ne i 255 with rfl | h
    · rw [if_pos rfl]
      simp only [decide_eq_true_eq]
      exact iff_of_true ⟨hc, h256⟩ (by trivial)
    · rw [if_neg h]
      simp only [decide_eq_true_eq]
      constructor
      · intro hcon
        have hcast : (i : ℝ) + 1 ≤ 255 := by
          have : i + 1 ≤ 255 := by omega
          exact_mod_cast this
        linarith [hcon.2]
      · intro heq; exact absurd heq h

theorem histCount_const {n : ℕ} {c : ℝ} (h0 : 0 ≤ c) (h256 : c ≤ 256) {i : ℕ}
    (hi : i < 256) :
    histCount (List.replicate n (FP.fin c)) i =
      if i = min (Nat.floor c) 255 then n else 0 := by
  unfold histCount
  rw [List.countP_replicate, if_congr (inBin_const_iff h0 h256 hi) rfl rfl]

theorem cdf_const {n : ℕ} {c : ℝ} (h0 : 0 ≤ c) (h256 : c ≤ 256) {j : ℕ} (hj : j ≤ 255) :
    cdf (List.replicate n (FP.fin c)) j =
      if min (Nat.floor c) 255 ≤ j then n else 0 := by
  unfold cdf
  rw [Finset.sum_congr rfl (fun i hi =>
    histCount_const h0 h256 (lt_of_lt_of_le (Finset.mem_range.mp hi) (by omega)))]
  rw [Finset.sum_ite_eq' (Finset.range (j + 1)) (min (Nat.floor c) 255) (fun _ => n)]
  simp only [Finset.mem_range, Nat.lt_succ_iff]

theorem cdfPeak_const {n : ℕ} {c : ℝ} (h0 : 0 ≤ c) (h256 : c ≤ 256) :
    cdfPeak (List.replicate n (FP.fin c)) = n := by
  apply le_antisymm
  · unfold cdfPeak
    apply Finset.sup_le
    intro j hj
    simp only [Finset.mem_range] at hj
    rw [cdf_const h0 h256 (by omega)]
    split <;> omega
  · have he := cdf_le_cdfPeak (List.replicate n (FP.fin c)) (le_refl 255)
    rw [cdf_const h0 h256 le_rfl, if_pos (by omega)] at he
    exact he

theorem histCount_le_histPeak (data : List FP) {i : ℕ} (hi : i < 256) :
    histCount data i ≤ histPeak data :=
  Finset.le_sup (Finset.mem_range.mpr hi)

theorem histPeak_const {n : ℕ} {c : ℝ} (h0 : 0 ≤ c) (h256 : c ≤ 256) :
    histPeak (List.replicate n (FP.fin c)) = n := by
  apply le_antisymm
  · unfold histPeak
    apply Finset.sup_le
    intro i hi
    simp only [Finset.mem_range] at hi
    rw [histCount_const h0 h256 hi]
    split <;> omega
  · have he := histCount_le_histPeak (List.replicate n (FP.fin c))
      (show min (Nat.floor c) 255 < 256 by omega)
    rw [@histCount_const n c h0 h256 (min (Nat.floor c) 255) (by omega), if_pos rfl] at he
    exact he

/-- The normalized curve of a constant in-range image is `n` from the
occupied bin onward. -/
theorem curve_const_hi {n : ℕ} (hn : 0 < n) {c : ℝ} (h0 : 0 ≤ c) (h256 : c ≤ 256)
    {j : ℕ} (hj : j ≤ 255) (hij : min (Nat.floor c) 255 ≤ j) :
    (cdf (List.replicate n (FP.fin c)) j : ℝ) *
        (histPeak (List.replicate n (FP.fin c)) : ℝ) /
        (cdfPeak (List.replicate n (FP.fin c)) : ℝ) = (n : ℝ) := by
  rw [cdf_const h0 h256 hj, if_pos hij, histPeak_const h0 h256, cdfPeak_const h0 h256]
  have hne : (n : ℝ) ≠ 0 := Nat.cast_ne_zero.mpr (by omega)
  rw [mul_div_assoc, div_self hne, mul_one]

/-- A constant in-range image maps to the constant `n` under the
histogram-equalization lookup. -/
theorem lookup_const {n : ℕ} (hn : 0 < n) {c : ℝ} (h0 : 0 ≤ c) (h256 : c ≤ 256) :
    histEqLookup (List.replicate n (FP.fin c)) (FP.fin c) = FP.fin (n : ℝ) := by
  have hpos : 0 < cdfPeak (List.replicate n (FP.fin c)) := by
    rw [cdfPeak_const h0 h256]; omega
  rw [lookup_fin_of_pos hpos]
  congr 1
  unfold interpKnots
  by_cases hc0 : c ≤ 0
  · rw [if_pos hc0]
    have hc : c = 0 := le_antisymm hc0 h0
    subst hc
    exact curve_const_hi hn h0 h256 (by omega) (by simp)
  · rw [if_neg hc0]
    by_cases hc255 : ((255 : ℕ) : ℝ) ≤ c
    · rw [if_pos hc255]
      exact curve_const_hi hn h0 h256 le_rfl (by omega)
    · rw [if_neg hc255]
      push_neg at hc0 hc255
      have hfl : Nat.floor c < 255 := by
        apply (Nat.floor_lt h0).mpr
        exact_mod_cast hc255
      have hmin : min (Nat.floor c) 255 = Nat.floor c := min_eq_left (by omega)
      have e1 := curve_const_hi hn h0 h256 (show Nat.floor c ≤ 255 by omega)
        (show min (Nat.floor c) 255 ≤ Nat.floor c by omega)
      have e2 := curve_const_hi hn h0 h256 (show Nat.floor c + 1 ≤ 255 by omega)
        (show min (Nat.floor c) 255 ≤ Nat.floor c + 1 by omega)
      simp only [e1, e2]
      ring

theorem inBin_outrange {c : ℝ} (hc : c < 0 ∨ 256 < c) {i : ℕ} (hi : i < 256) :
    inBin i (FP.fin c) = false := by
  simp only [inBin]
  rcases eq_or_ne i 255 with rfl | h
  · rw [if_pos rfl, decide_eq_false_iff_not]
    rcases hc with hc | hc <;> intro hcon <;> [linarith [hcon.1]; linarith [hcon.2]]
  · rw [if_neg h, decide_eq_false_iff_not]
    intro hcon
    rcases hc with hc | hc
    · have : (0 : ℝ) ≤ (i : ℝ) := Nat.cast_nonneg i
      linarith [hcon.1]
    · have : (i : ℝ) + 1 ≤ 256 := by exact_mod_cast hi
      linarith [hcon.2]

theorem cdfPeak_const_outrange {n : ℕ} {c : ℝ} (hc : c < 0 ∨ 256 < c) :
    cdfPeak (List.replicate n (FP.fin c)) = 0 := by
  have hcdf : ∀ j ∈ Finset.range 256, cdf (List.replicate n (FP.fin c)) j = 0 := by
    intro j hj
    simp only [Finset.mem_range] at hj
    unfold cdf
    apply Finset.sum_eq_zero
    intro i hi
    simp only [Finset.mem_range] at hi
    unfold histCount
    rw [List.countP_replicate, inBin_outrange hc (by omega)]
    simp
  refine Nat.le_zero.mp (Finset.sup_le ?_)
  intro j hj
  rw [hcdf j hj]

theorem scaleStep_histeq_const_inrange {n : ℕ} (hn : 0 < n) {c : ℝ} (h0 : 0 ≤ c)
    (h256 : c ≤ 256) :
    scaleStep Method.hist_eq noKwargs (List.replicate n (FP.fin c)) =
      Except.ok (List.replicate n (FP.fin (n : ℝ))) := by
  simp only [scaleStep, hist_eq_scaling, List.map_replicate, lookup_const hn h0 h256]

theorem scaleStep_histeq_const_outrange {n : ℕ} {c : ℝ} (hc : c < 0 ∨ 256 < c) :
    scaleStep Method.hist_eq noKwargs (List.replicate n (FP.fin c)) =
      Except.ok (List.replicate n FP.nan) := by
  simp only [scaleStep, hist_eq_scaling, List.map_replicate,
    lookup_nan_of_zero (cdfPeak_const_outrange hc)]

/-- Claim C2 (amended): for an all-constant finite input, every one of the
five methods follows the same policy through the dispatcher, but that
policy is a silent NaN leak, not an error and not a defined finite
constant: the pipeline returns an all-NaN array.  `linear`/`log`/`sqrt`
divide `0/0` once the derived range degenerates to `(c, c)`; `asinh`
divides by `arcsinh(0) = 0`; `hist_eq` produces a constant array (or NaN
for out-of-range constants) that the final renormalization turns into
`0/0` at every pixel.  No `DegenerateRange` error is ever raised. -/
theorem constant_input_all_nan (m : Method) (c : ℝ) (n : ℕ) (hn : 0 < n) :
    process_fits m noKwargs (NDArray.mk [1, n] (List.replicate n (FP.fin c))) 0 =
      Except.ok (NDArray.mk [1, n] (List.replicate n FP.nan)) := by
  have hacc : acceptsKwargs m noKwargs = true := by cases m <;> rfl
  have hex : extractFrame (NDArray.mk [1, n] (List.replicate n (FP.fin c))) 0 =
      NDArray.mk [1, n] (List.replicate n (FP.fin c)) := by
    unfold extractFrame
    norm_num
  have key : Except.map renorm (scaleStep m noKwargs (List.replicate n (FP.fin c))) =
      Except.ok (List.replicate n FP.nan) := by
    cases m with
    | linear =>
      rw [scaleStep_linear_const hn c]
      simp [Except.map, renorm_replicate_nan]
    | log =>
      rw [scaleStep_log_const hn c]
      simp [Except.map, renorm_replicate_nan]
    | sqrt =>
      rw [scaleStep_sqrt_const hn c]
      simp [Except.map, renorm_replicate_nan]
    | asinh =>
      rw [scaleStep_asinh_const hn c]
      simp [Except.map, renorm_replicate_nan]
    | hist_eq =>
      rcases le_or_lt 0 c with h0 | h0
      · rcases le_or_lt c 256 with h256 | h256
        · rw [scaleStep_histeq_const_inrange hn h0 h256]
          simp [Except.map, renorm_replicate_fin hn]
        · rw [scaleStep_histeq_const_outrange (Or.inr h256)]
          simp [Except.map, renorm_replicate_nan]
      · rw [scaleStep_histeq_const_outrange (Or.inl h0)]
        simp [Except.map, renorm_replicate_nan]
  unfold process_fits
  rw [hex]
  unfold processEntries
  rw [if_pos hacc, key]
  rfl

/-- Witness for C2's amended claim: `sqrt` on the constant pair `[7, 7]`. -/
theorem constant_input_all_nan_witness :
    process_fits Method.sqrt noKwargs
        (NDArray.mk [1, 2] (List.replicate 2 (FP.fin 7))) 0 =
      Except.ok (NDArray.mk [1, 2] (List.replicate 2 FP.nan)) :=
  constant_input_all_nan Method.sqrt 7 2 (by norm_num)

/-- Claim C2 counterexample: `linear` on the constant image `[5, 5]`
returns successfully — no `DegenerateRange` (or any) error — and the
returned entries are NaN: the code silently leaks NaN on an all-constant
finite input, contradicting the claimed "raise or defined constant
output, never silent NaN" policy. -/
theorem constant_input_nan_leak_counterexample :
    process_fits Method.linear noKwargs (NDArray.mk [1, 2] [FP.fin 5, FP.fin 5]) 0 =
      Except.ok (NDArray.mk [1, 2] [FP.nan, FP.nan]) := by
  have hex : extractFrame (NDArray.mk [1, 2] [FP.fin 5, FP.fin 5]) 0 =
      NDArray.mk [1, 2] [FP.fin 5, FP.fin 5] := by
    unfold extractFrame
    norm_num
  have key : Except.map renorm (scaleStep Method.linear noKwargs [FP.fin 5, FP.fin 5]) =
      Except.ok [FP.nan, FP.nan] := by
    rw [show ([FP.fin 5, FP.fin 5] : List FP) = List.replicate 2 (FP.fin 5) from rfl,
      scaleStep_linear_const (show (0 : ℕ) < 2 by norm_num) 5]
    simp only [Except.map]
    rw [renorm_replicate_nan]
    rfl
  unfold process_fits
  rw [hex]
  unfold processEntries
  rw [if_pos (show acceptsKwargs Method.linear noKwargs = true from rfl), key]
  rfl
